import Mathlib

/-!
Verification development for the `template_agent` repository.

The repository is a thin orchestration pipeline: a plan generator and a story
writer (LLM-backed), a pronunciation normalizer, a speech synthesizer, a
silence generator, an audio combiner, an object-storage uploader, an output
persister, and two front ends (`cli.py`, `app.py`) that sequence them.

This file gives a shallow embedding of the pure and checkable parts of that
code, translated from the Python source:

* `apply_pronunciation_hints` (audio_utils.py lines 11-30): an ordered table of
  whole-word regex substitutions followed by whitespace collapsing.
* `normalize_bunny_storage_host` (audio_utils.py lines 104-118).
* Precondition guards of `synthesize_silence_segment` (lines 79-81) and
  `concatenate_audio_segments` (lines 149-155), with the external `ffmpeg`
  invocations modelled as an effect trace.
* `write_full_stories` (agent_core.py lines 71-101): the LLM backend is an
  external collaborator, modelled as a function parameter whose answer is then
  schema-validated (pydantic `Field(min_length=3, max_length=3)`).
* `render_story_text` and `save_outputs` (agent_core.py lines 104-134), with
  file writes modelled as a list of (name, content) pairs and the wall clock
  (`datetime.now(UTC)`) passed in as an explicit second-resolution UTC tuple.
* The audio segment assembly loop of the orchestrator (cli.py lines 86-104,
  app.py lines 320-336).

Strings are modelled as `List Char`.  Python floats are modelled by `ℚ` (the
only float used in the claims is the literal `0.8`, modelled as `4/5`).  The
regex word-character class `\w` and Python's `str.split()` whitespace class
are modelled on the character ranges Lean's `Char.isAlphanum` and
`Char.isWhitespace` decide; every pattern in the substitution table is ASCII,
where the two classes agree with Python's.
-/

namespace TemplateAgent

/-! ### Character classes -/

/-- Word character for the regex word boundary `\b` of the substitution
patterns in `_apply_pronunciation_hints` (audio_utils.py lines 13-25). -/
def wordChar (c : Char) : Bool := c.isAlphanum || c == '_'

/-! ### Whole-word regex matching and substitution

`re.sub(r"\bPAT\b", rep, s)` for a pattern `PAT` made of word characters:
scan `s` left to right; at a position whose preceding character is not a word
character, if `PAT` is a prefix of the remaining input and the character after
it (if any) is not a word character, replace it and continue scanning after
the match; otherwise advance one character. -/

/-- `matchesAt pat s` : `pat` is a prefix of `s` and the position right after
the match is a word boundary (end of input or a non-word character). -/
def matchesAt : List Char → List Char → Bool
  | [], [] => true
  | [], c :: _ => !wordChar c
  | _ :: _, [] => false
  | p :: ps, c :: cs => p == c && matchesAt ps cs

/-- Scanner for whole-word occurrences.  The flag records whether the
character just before the current position is a word character (`false` at
the start of the string). -/
def hasOccAux (pat : List Char) : Bool → List Char → Bool
  | _, [] => false
  | prev, c :: cs => (!prev && matchesAt pat (c :: cs)) || hasOccAux pat (wordChar c) cs

/-- Substitution scanner of `re.sub` for a whole-word pattern.  After a
replaced match the flag is `true`: every pattern of the table ends in a word
character. -/
def subAux (pat rep : List Char) : Bool → List Char → List Char
  | _, [] => []
  | prev, c :: cs =>
    cond (!prev && matchesAt pat (c :: cs))
      (rep ++ subAux pat rep true (cs.drop (pat.length - 1)))
      (c :: subAux pat rep (wordChar c) cs)
termination_by _ s => s.length
decreasing_by
  · simp only [List.length_cons, List.length_drop]
    omega
  · simp only [List.length_cons]
    omega

/-- One `re.sub(r"\bpat\b", rep, s)` call. -/
def subRegex (pat rep s : List Char) : List Char := subAux pat rep false s

/-- Scanner state after reading a string: whether its last character is a
word character (the entry state if the string is empty). -/
def scanEnd : Bool → List Char → Bool
  | prev, [] => prev
  | _, c :: cs => scanEnd (wordChar c) cs

/-- All characters are word characters. -/
def allWord : List Char → Bool
  | [] => true
  | c :: cs => wordChar c && allWord cs

/-- The position at the head of the list is a word boundary for a pattern of
word characters: the list is empty or starts with a non-word character. -/
def bdry : List Char → Bool
  | [] => true
  | c :: _ => !wordChar c

/-! ### Python `str.split()` / `" ".join` -/

/-- Python's `str.split()` with no argument: split on runs of whitespace,
discarding empty pieces. -/
def splitWhitespace : List Char → List (List Char)
  | [] => []
  | c :: cs =>
    if c.isWhitespace then splitWhitespace cs
    else (c :: cs.takeWhile (fun d => !d.isWhitespace)) ::
      splitWhitespace (cs.dropWhile (fun d => !d.isWhitespace))
termination_by s => s.length
decreasing_by
  · simp only [List.length_cons]
    omega
  · have h := (List.dropWhile_suffix (l := cs) (fun d => !d.isWhitespace)).length_le
    simp only [List.length_cons]
    omega

/-- Python's `sep.join(pieces)` for a one-character separator. -/
def joinWith (sep : Char) : List (List Char) → List Char
  | [] => []
  | [w] => w
  | w :: x :: ws => w ++ sep :: joinWith sep (x :: ws)

/-- `" ".join(s.split())`: collapse whitespace runs to single spaces and trim
both ends (audio_utils.py line 30). -/
def collapseWhitespace (s : List Char) : List Char := joinWith ' ' (splitWhitespace s)

/-! ### The pronunciation substitution table (audio_utils.py lines 12-26) -/

/-- The fixed ordered table of (acronym pattern, phonetic replacement) pairs. -/
def substitutions : List (List Char × List Char) :=
  [ ("CENTCOM".toList, "SENT-kom".toList)
  , ("NATO".toList, "NAY-toh".toList)
  , ("FEMA".toList, "FEE-muh".toList)
  , ("CISA".toList, "SIZ-uh".toList)
  , ("DHS".toList, "D H S".toList)
  , ("TSA".toList, "T S A".toList)
  , ("FAA".toList, "F A A".toList)
  , ("EPA".toList, "E P A".toList)
  , ("DOJ".toList, "D O J".toList)
  , ("FBI".toList, "F B I".toList)
  , ("NTSB".toList, "N T S B".toList)
  , ("CBP".toList, "C B P".toList)
  , ("ICE".toList, "I C E".toList) ]

/-- Apply a substitution table in order (the `for pattern, replacement in
substitutions` loop, audio_utils.py lines 28-29). -/
def runSubs (tbl : List (List Char × List Char)) (s : List Char) : List Char :=
  tbl.foldl (fun acc pr => subRegex pr.1 pr.2 acc) s

/-- `_apply_pronunciation_hints` (audio_utils.py lines 11-30): the ordered
substitutions followed by whitespace collapsing. -/
def apply_pronunciation_hints (s : List Char) : List Char :=
  collapseWhitespace (runSubs substitutions s)

/-- Input text contains a whole-word occurrence of some acronym of the
substitution table (i.e. some regex of the table matches). -/
def containsTableAcronym (s : List Char) : Bool :=
  substitutions.any (fun pr => hasOccAux pr.1 false s)

/-- Structural facts about a substitution pair used by the idempotence
proofs: the pattern is a nonempty word, and the replacement ends in a word
character. -/
def goodPat (pr : List Char × List Char) : Prop :=
  pr.1 ≠ [] ∧ allWord pr.1 = true ∧ scanEnd false pr.2 = true

instance (pr : List Char × List Char) : Decidable (goodPat pr) := by
  unfold goodPat
  infer_instance

/-! ### Object storage host normalization (audio_utils.py lines 104-118) -/

/-- Remove a run of matching characters from the end of a list (the
right-hand half of Python's `str.strip`). -/
def dropTrailing (p : Char → Bool) (l : List Char) : List Char :=
  ((l.reverse).dropWhile p).reverse

/-- Python's `str.strip()` with no argument: remove whitespace from both
ends. -/
def pyStrip (l : List Char) : List Char :=
  dropTrailing (fun c => c.isWhitespace) (l.dropWhile (fun c => c.isWhitespace))

/-- The `removeprefix("https://")` / `elif` / `removeprefix("http://")` steps
(audio_utils.py lines 106-109). -/
def dropScheme (l : List Char) : List Char :=
  if "https://".toList.isPrefixOf l then l.drop 8
  else if "http://".toList.isPrefixOf l then l.drop 7
  else l

/-- Python's `str.strip("/")`: remove slashes from both ends
(audio_utils.py line 111). -/
def stripSlashes (l : List Char) : List Char :=
  dropTrailing (fun c => c == '/') (l.dropWhile (fun c => c == '/'))

/-- `_normalize_bunny_storage_host` (audio_utils.py lines 104-118). -/
def normalize_bunny_storage_host (region : List Char) : List Char :=
  let cleaned := stripSlashes (dropScheme (pyStrip region))
  if cleaned = [] then "storage.bunnycdn.com".toList
  else if ".bunnycdn.com".toList.isSuffixOf cleaned then cleaned
  else cleaned ++ ".storage.bunnycdn.com".toList

/-- Host normalization as claim C6 words it, read charitably: strip an
`http://` or `https://` scheme and trailing slashes; keep the result
if it already ends in the provider's root domain, else treat it as a region
code and append the provider domain.  (It does not mention the surrounding
whitespace and the leading slashes that the code also strips, nor the
empty-input default.) -/
def claimNormalizeHost (region : List Char) : List Char :=
  let cleaned := dropTrailing (fun c => c == '/') (dropScheme region)
  if ".bunnycdn.com".toList.isSuffixOf cleaned then cleaned
  else cleaned ++ ".storage.bunnycdn.com".toList

/-- Host normalization as amended: strip surrounding whitespace, then an
`https://` or `http://` scheme, then slashes from both ends (written here
trailing-first, the opposite order from the code, which strips leading
slashes first); if nothing remains use the default host, if the result ends
in `.bunnycdn.com` use it unchanged, otherwise append
`.storage.bunnycdn.com`. -/
def amendedNormalizeHost (region : List Char) : List Char :=
  let cleaned := (dropTrailing (fun c => c == '/')
    (dropScheme (pyStrip region))).dropWhile (fun c => c == '/')
  if cleaned = [] then "storage.bunnycdn.com".toList
  else if ".bunnycdn.com".toList.isSuffixOf cleaned then cleaned
  else cleaned ++ ".storage.bunnycdn.com".toList

/-! ### Data model (models.py) -/

/-- `STORY_COUNT` (models.py line 5). -/
def STORY_COUNT : Nat := 3

/-- `StoryIdea` (models.py lines 8-10). -/
structure StoryIdea where
  headline : List Char
  angle : List Char
deriving DecidableEq

/-- `StoryPlan` (models.py lines 13-15); the length constraint of its
`stories` field is the pydantic validation, modelled where the plan is
produced. -/
structure StoryPlan where
  topic : List Char
  stories : List StoryIdea
deriving DecidableEq

/-- `WrittenStory` (models.py lines 18-21); `index` is a Python `int`. -/
structure WrittenStory where
  index : Int
  headline : List Char
  story : List Char
deriving DecidableEq

/-- `WrittenStories` (models.py lines 24-26). -/
structure WrittenStories where
  topic : List Char
  stories : List WrittenStory
deriving DecidableEq

/-- Schema validation error raised at the pydantic boundary. -/
inductive ValidationError where
  | lengthMismatch
deriving DecidableEq

/-- The pydantic validation of `WrittenStories.stories`
(`Field(min_length=STORY_COUNT, max_length=STORY_COUNT)`, models.py
line 26): indices and headlines are not constrained. -/
def validateWrittenStories (w : WrittenStories) : Except ValidationError WrittenStories :=
  if w.stories.length = STORY_COUNT then .ok w else .error .lengthMismatch

/-- `write_full_stories` (agent_core.py lines 71-101).  The language-model
backend is an external collaborator (spec section 1) reached through
`writer.run_sync`; it is modelled as the function `backend` from the plan to
the structured payload it returns, which pydantic then validates. -/
def write_full_stories (backend : StoryPlan → WrittenStories) (plan : StoryPlan) :
    Except ValidationError WrittenStories :=
  validateWrittenStories (backend plan)

/-- The order/headline invariant claimed for Story Writer output
(spec section 3): `stories[i].index == i+1` and
`stories[i].headline == plan.stories[i].headline` for all `i < N`. -/
def writerInvariant (plan : StoryPlan) (w : WrittenStories) : Prop :=
  ∀ i : Nat, i < STORY_COUNT →
    ∃ st pi, w.stories.get? i = some st ∧ plan.stories.get? i = some pi ∧
      st.index = (i : Int) + 1 ∧ st.headline = pi.headline

instance instDecidableStoryAt (o₁ : Option WrittenStory) (o₂ : Option StoryIdea) (i : Nat) :
    Decidable (∃ st pi, o₁ = some st ∧ o₂ = some pi ∧
      st.index = (i : Int) + 1 ∧ st.headline = pi.headline) :=
  match o₁, o₂ with
  | some st, some pi =>
    decidable_of_iff (st.index = (i : Int) + 1 ∧ st.headline = pi.headline) (by simp)
  | none, _ => isFalse (by rintro ⟨st, pi, h, _⟩; cases h)
  | some _, none => isFalse (by rintro ⟨st, pi, h₁, h₂, _⟩; cases h₂)

instance (plan : StoryPlan) (w : WrittenStories) : Decidable (writerInvariant plan w) := by
  unfold writerInvariant
  exact Nat.decidableBallLT _ _

/-! ### Run directory naming (agent_core.py lines 113-117) -/

/-- A UTC instant at second resolution, the fields `datetime.now(UTC)`
formats through `strftime("%Y%m%dT%H%M%SZ")`. -/
structure UtcTimestamp where
  year : Nat
  month : Nat
  day : Nat
  hour : Nat
  minute : Nat
  second : Nat
deriving DecidableEq

/-- Field ranges guaranteed by Python's `datetime` (year 1-9999, month 1-12,
day 1-31, hour 0-23, minute and second 0-59). -/
def validTimestamp (t : UtcTimestamp) : Prop :=
  1 ≤ t.year ∧ t.year ≤ 9999 ∧ 1 ≤ t.month ∧ t.month ≤ 12 ∧ 1 ≤ t.day ∧ t.day ≤ 31 ∧
    t.hour ≤ 23 ∧ t.minute ≤ 59 ∧ t.second ≤ 59

instance (t : UtcTimestamp) : Decidable (validTimestamp t) := by
  unfold validTimestamp
  infer_instance

/-- The character of a decimal digit. -/
def digitChar : Nat → Char
  | 0 => '0'
  | 1 => '1'
  | 2 => '2'
  | 3 => '3'
  | 4 => '4'
  | 5 => '5'
  | 6 => '6'
  | 7 => '7'
  | 8 => '8'
  | 9 => '9'
  | _ => '*'

/-- Zero-padded fixed-width decimal rendering, as `strftime` produces for
`%Y` (width 4) and `%m %d %H %M %S` (width 2). -/
def padNum : Nat → Nat → List Char
  | 0, _ => []
  | w + 1, n => padNum w (n / 10) ++ [digitChar (n % 10)]

/-- `datetime.now(UTC).strftime("%Y%m%dT%H%M%SZ")` (agent_core.py
line 114). -/
def run_stamp (t : UtcTimestamp) : List Char :=
  padNum 4 t.year ++ (padNum 2 t.month ++ (padNum 2 t.day ++
    ('T' :: (padNum 2 t.hour ++ (padNum 2 t.minute ++ (padNum 2 t.second ++ ['Z']))))))

/-- `"-".join(plan.topic.lower().split())[:60] or "topic"` (agent_core.py
line 115).  `Char.toLower` models `str.lower` on the ASCII range. -/
def topic_slug (topic : List Char) : List Char :=
  let joined := (joinWith '-' (splitWhitespace (topic.map Char.toLower))).take 60
  if joined = [] then "topic".toList else joined

/-- The run directory name `f"{topic_slug}_{run_stamp}"` chosen by
`save_outputs` (agent_core.py line 116) for a topic and an invocation
instant. -/
def run_dir_name (topic : List Char) (t : UtcTimestamp) : List Char :=
  topic_slug topic ++ '_' :: run_stamp t

/-! ### Output persister (agent_core.py lines 104-134) -/

/-- A decimal rendering of a Python `int` as `f"{i}"` produces it. -/
def natDigits (n : Nat) : List Char :=
  if h : n < 10 then [digitChar n] else natDigits (n / 10) ++ [digitChar (n % 10)]
decreasing_by
  exact Nat.div_lt_self (by omega) (by omega)

/-- String form of a Python `int` (possibly negative). -/
def intStr (i : Int) : List Char :=
  if i < 0 then '-' :: natDigits i.natAbs else natDigits i.toNat

/-- The three lines the `for story in written.stories` loop appends for each
story (agent_core.py lines 106-109): the index/headline line, the story body,
and a blank separator line. -/
def storyLines : List WrittenStory → List (List Char)
  | [] => []
  | st :: rest =>
    (intStr st.index ++ ". ".toList ++ st.headline) :: st.story :: [] :: storyLines rest

/-- `render_story_text` (agent_core.py lines 104-110): header lines followed
by the per-story lines, joined with newlines. -/
def render_story_text (w : WrittenStories) : List Char :=
  joinWith '\n'
    (("Topic: ".toList ++ w.topic) :: [] :: "Generated stories:".toList :: [] ::
      storyLines w.stories)

/-- The text `render_story_text` contributes for the story list, used to
state its shape: one block per story of index line, body and blank
separator. -/
def storyBlocks : List WrittenStory → List Char
  | [] => []
  | st :: rest =>
    '\n' :: (intStr st.index ++ ". ".toList ++ st.headline) ++
      '\n' :: st.story ++ '\n' :: storyBlocks rest

/-- Contents of the files `save_outputs` writes; the two JSON files carry
the serialized models (via the stdlib `json.dumps(..., indent=2)`), the text
file carries the rendering. -/
inductive FileContent where
  | jsonPlan (plan : StoryPlan)
  | jsonWritten (written : WrittenStories)
  | textFile (text : List Char)
deriving DecidableEq

/-- The file writes of `save_outputs` (agent_core.py lines 119-132), in
order, as (file name, content) pairs inside the run directory named by
`run_dir_name`. -/
def save_outputs (plan : StoryPlan) (written : WrittenStories) :
    List (List Char × FileContent) :=
  [ ("story_plan.json".toList, .jsonPlan plan)
  , ("written_stories.json".toList, .jsonWritten written)
  , ("written_stories.txt".toList, .textFile (render_story_text written)) ]

/-! ### Audio tool wrappers (audio_utils.py lines 79-101 and 149-186) -/

/-- Failure modes of the audio wrappers: the precondition `ValueError`
(`InvalidArgument` in the spec taxonomy) and an external tool failure. -/
inductive AudioError where
  | invalidArgument
  | toolError
deriving DecidableEq

/-- Observable side effects of an audio wrapper call, in order: creating the
scoped temporary directory, writing a segment file into it, invoking
`ffmpeg`. -/
inductive AudioEffect where
  | createTempDir
  | writeSegmentFile (idx : Nat)
  | invokeFfmpeg
deriving DecidableEq

/-- `synthesize_silence_segment` (audio_utils.py lines 79-101): the duration
guard, then the temporary directory and the `ffmpeg` run, whose outcome
`tool` is the external collaborator's.  Durations are modelled in `ℚ`. -/
def synthesize_silence_segment (tool : Except AudioError Unit) (durationSeconds : ℚ)
    (sampleRate : Nat) : List AudioEffect × Except AudioError Unit :=
  if durationSeconds ≤ 0 then ([], .error .invalidArgument)
  else ([.createTempDir, .invokeFfmpeg], tool)

/-- `concatenate_audio_segments` (audio_utils.py lines 149-186): the length
guard, then the temporary directory, one segment file per buffer, and the
`ffmpeg` concat/loudnorm run with outcome `tool`. -/
def concatenate_audio_segments (tool : Except AudioError Unit)
    (audioSegments : List (List Nat)) : List AudioEffect × Except AudioError Unit :=
  if audioSegments.length < 2 then ([], .error .invalidArgument)
  else (.createTempDir ::
    ((List.range audioSegments.length).map .writeSegmentFile ++ [.invokeFfmpeg]), tool)

/-! ### Orchestrator audio assembly (cli.py lines 86-104, app.py 320-336) -/

/-- The `for idx, story in enumerate(written.stories)` loop: synthesize each
story in order and insert the silence buffer after every story except the
last (`if idx + 1 < len(written.stories)`). -/
def buildOrderedSegments {α : Type} (synth : WrittenStory → α) (silence : α) :
    List WrittenStory → List α
  | [] => []
  | [st] => [synth st]
  | st :: next :: rest => synth st :: silence :: buildOrderedSegments synth silence (next :: rest)

/-- The segment list both front ends build, with the silence generator called
at the fixed duration `0.8` seconds (modelled as `4/5`). -/
def storyAudioSegments {α : Type} (synth : WrittenStory → α) (silenceGen : ℚ → α)
    (stories : List WrittenStory) : List α :=
  buildOrderedSegments synth (silenceGen (4 / 5)) stories

/-- How the orchestrator consumes the segment list (cli.py lines 99-104):
either one Audio Combiner call on the whole list, or the single buffer
unchanged, or the empty result `b""`. -/
inductive CombineOutcome (α : Type) where
  | combined (segments : List α)
  | single (segment : α)
  | empty

/-- `if len(ordered_segments) >= 2: concatenate ... elif ordered_segments:
ordered_segments[0] else: b""`. -/
def combineDecision {α : Type} (segments : List α) : CombineOutcome α :=
  if 2 ≤ segments.length then .combined segments
  else
    match segments with
    | [a] => .single a
    | _ => .empty

/-! ### Concrete sample data used by witnesses and counterexamples -/

/-- A concrete valid plan with the spec's example topic. -/
def samplePlan : StoryPlan :=
  ⟨"coral reef bleaching".toList,
    [⟨"h1".toList, "a1".toList⟩, ⟨"h2".toList, "a2".toList⟩, ⟨"h3".toList, "a3".toList⟩]⟩

/-- A backend payload that satisfies the order/headline invariant for
`samplePlan`. -/
def goodWritten : WrittenStories :=
  ⟨"coral reef bleaching".toList,
    [⟨1, "h1".toList, "s1".toList⟩, ⟨2, "h2".toList, "s2".toList⟩,
      ⟨3, "h3".toList, "s3".toList⟩]⟩

/-- A backend payload with three well-typed stories whose first index is `7`:
it passes the pydantic length validation yet violates the order/headline
invariant. -/
def badWritten : WrittenStories :=
  ⟨"coral reef bleaching".toList,
    [⟨7, "h1".toList, "s1".toList⟩, ⟨2, "h2".toList, "s2".toList⟩,
      ⟨3, "h3".toList, "s3".toList⟩]⟩

/-! ## Theorems -/

/-- C1: when audio is requested for three written stories, the orchestrator
loop synthesizes each story exactly once in list order, inserts the fixed
`0.8`-second silence buffer between consecutive clips and not after the
last, and hands the resulting five-element list to the Audio Combiner in one
call; for zero segments the combiner is skipped with an empty result, and a
single segment is used unchanged without combining. -/
theorem c1_orchestrator_audio_assembly {α : Type} (synth : WrittenStory → α)
    (silenceGen : ℚ → α) (s₁ s₂ s₃ : WrittenStory) (a : α) :
    storyAudioSegments synth silenceGen [s₁, s₂, s₃] =
      [synth s₁, silenceGen (4 / 5), synth s₂, silenceGen (4 / 5), synth s₃] ∧
    combineDecision (storyAudioSegments synth silenceGen [s₁, s₂, s₃]) =
      .combined [synth s₁, silenceGen (4 / 5), synth s₂, silenceGen (4 / 5), synth s₃] ∧
    storyAudioSegments synth silenceGen [] = [] ∧
    combineDecision ([] : List α) = .empty ∧
    combineDecision [a] = .single a := by
  refine ⟨rfl, ?_, rfl, rfl, rfl⟩
  rfl

/-- C2 counterexample: a backend payload whose three stories are well typed
but start at index `7` passes the pydantic validation unchanged, so the
Story Writer does not guarantee the order/headline invariant for every
plan. -/
theorem c2_counterexample :
    ¬ ∀ (backend : StoryPlan → WrittenStories) (plan : StoryPlan) (w : WrittenStories),
        write_full_stories backend plan = .ok w → writerInvariant plan w := by
  intro h
  have hb := h (fun _ => badWritten) samplePlan badWritten rfl
  exact absurd hb (by decide)

/-- C2 amended: the Story Writer validates only the story count (exactly
`STORY_COUNT = 3`) and returns the backend payload unchanged; hence its
output satisfies the order/headline invariant exactly when the backend's
schema-validated response does — the code itself does not enforce the
invariant. -/
theorem c2_story_writer_validation (backend : StoryPlan → WrittenStories)
    (plan : StoryPlan) (w : WrittenStories)
    (h : write_full_stories backend plan = .ok w) :
    w.stories.length = STORY_COUNT ∧ w = backend plan ∧
      (writerInvariant plan (backend plan) → writerInvariant plan w) := by
  unfold write_full_stories validateWrittenStories at h
  by_cases hl : (backend plan).stories.length = STORY_COUNT
  · rw [if_pos hl] at h
    cases h
    exact ⟨hl, rfl, fun hi => hi⟩
  · rw [if_neg hl] at h
    cases h

/-- C2 witness: at the concrete compliant backend payload the amended
theorem applies. -/
theorem c2_story_writer_validation_witness :
    goodWritten.stories.length = STORY_COUNT ∧ goodWritten = goodWritten ∧
      (writerInvariant samplePlan goodWritten → writerInvariant samplePlan goodWritten) :=
  c2_story_writer_validation (fun _ => goodWritten) samplePlan goodWritten rfl

/-- C4: the Audio Combiner rejects every input list of fewer than two
segments with `InvalidArgument`, producing no effect at all — in particular
no temporary files and no external tool invocation. -/
theorem c4_combiner_guard (tool : Except AudioError Unit) (segs : List (List Nat))
    (h : segs.length < 2) :
    concatenate_audio_segments tool segs = ([], .error .invalidArgument) := by
  unfold concatenate_audio_segments
  rw [if_pos h]

/-- C4 witness: the guard fires on the empty segment list. -/
theorem c4_combiner_guard_witness :
    concatenate_audio_segments (.ok ()) [] = ([], .error .invalidArgument) :=
  c4_combiner_guard (.ok ()) [] (by decide)

/-- C5: the Silence Generator rejects every duration `≤ 0` with
`InvalidArgument` and no effect (so before any external tool invocation),
and for every duration `> 0` the precondition check passes: the temporary
directory is created and the tool invoked, the call returning the tool's
outcome. -/
theorem c5_silence_guard (tool : Except AudioError Unit) (d : ℚ) (sr : Nat) :
    (d ≤ 0 → synthesize_silence_segment tool d sr = ([], .error .invalidArgument)) ∧
    (0 < d → synthesize_silence_segment tool d sr =
      ([.createTempDir, .invokeFfmpeg], tool)) := by
  constructor
  · intro h
    unfold synthesize_silence_segment
    rw [if_pos h]
  · intro h
    unfold synthesize_silence_segment
    rw [if_neg (by exact not_le.mpr h)]

/-- C5 witness: the guard fires at duration `-1` and passes at the
orchestrator's duration `0.8 = 4/5`. -/
theorem c5_silence_guard_witness :
    synthesize_silence_segment (.ok ()) (-1) 44100 = ([], .error .invalidArgument) ∧
    synthesize_silence_segment (.ok ()) (4 / 5) 44100 =
      ([.createTempDir, .invokeFfmpeg], .ok ()) :=
  ⟨(c5_silence_guard (.ok ()) (-1) 44100).1 (by norm_num),
    (c5_silence_guard (.ok ()) (4 / 5) 44100).2 (by norm_num)⟩

/-- C10: whenever the region hint is empty or reduces to the empty string
after stripping whitespace, the scheme and the slashes, the host
normalization returns the provider default `storage.bunnycdn.com` instead of
failing. -/
theorem c10_empty_region_default (region : List Char)
    (h : stripSlashes (dropScheme (pyStrip region)) = []) :
    normalize_bunny_storage_host region = "storage.bunnycdn.com".toList := by
  unfold normalize_bunny_storage_host
  rw [h]
  simp

/-- C10 witness: a hint that is only a scheme and slashes falls back to the
default host. -/
theorem c10_empty_region_default_witness :
    normalize_bunny_storage_host "https:///".toList = "storage.bunnycdn.com".toList :=
  c10_empty_region_default "https:///".toList (by decide)

/-! ### Helper lemmas for the renderer (agent_core.py lines 104-110) -/

theorem joinWith_nl_storyLines (sts : List WrittenStory) :
    ∀ pre : List Char, joinWith '\n' (pre :: storyLines sts) = pre ++ storyBlocks sts := by
  induction sts with
  | nil => intro pre; simp [storyLines, storyBlocks, joinWith]
  | cons st rest ih =>
    intro pre
    simp only [storyLines, joinWith, ih []]
    simp [storyBlocks]

/-- C8: the Output Persister writes exactly three files — the plan as JSON,
the written stories as JSON, and the plain-text rendering — and the
rendering begins with the line `Topic: ` followed by the topic, then (after
the `Generated stories:` header) lists each story as its index and headline
line, the story body and a blank separator line. -/
theorem c8_output_persister (plan : StoryPlan) (written : WrittenStories) :
    (save_outputs plan written).length = 3 ∧
    (save_outputs plan written).map Prod.fst =
      ["story_plan.json".toList, "written_stories.json".toList,
        "written_stories.txt".toList] ∧
    (save_outputs plan written).map Prod.snd =
      [.jsonPlan plan, .jsonWritten written, .textFile (render_story_text written)] ∧
    render_story_text written =
      "Topic: ".toList ++ written.topic ++
        '\n' :: '\n' :: ("Generated stories:".toList ++ '\n' :: storyBlocks written.stories) ∧
    ("Topic: ".toList ++ written.topic ++ ['\n']) <+: render_story_text written := by
  have hr : render_story_text written =
      "Topic: ".toList ++ written.topic ++
        '\n' :: '\n' :: ("Generated stories:".toList ++ '\n' :: storyBlocks written.stories) := by
    unfold render_story_text
    simp only [joinWith, joinWith_nl_storyLines]
    simp
  refine ⟨rfl, rfl, rfl, hr, ?_⟩
  refine ⟨'\n' :: ("Generated stories:".toList ++ '\n' :: storyBlocks written.stories), ?_⟩
  rw [hr]
  simp

/-! ### Helper lemmas for the run directory stamp (agent_core.py 113-117) -/

theorem padNum_length (w : Nat) : ∀ n, (padNum w n).length = w := by
  induction w with
  | zero => intro n; rfl
  | succ w ih => intro n; simp [padNum, ih]

theorem digitChar_inj {a b : Nat} (ha : a ≤ 9) (hb : b ≤ 9)
    (h : digitChar a = digitChar b) : a = b := by
  interval_cases a <;> interval_cases b <;> first | rfl | exact absurd h (by decide)

theorem padNum_inj (w : Nat) : ∀ m n, m < 10 ^ w → n < 10 ^ w →
    padNum w m = padNum w n → m = n := by
  induction w with
  | zero =>
    intro m n hm hn _
    simp only [pow_zero, Nat.lt_one_iff] at hm hn
    omega
  | succ w ih =>
    intro m n hm hn h
    simp only [padNum] at h
    obtain ⟨h1, h2⟩ := List.append_inj h (by rw [padNum_length, padNum_length])
    have hmw : m / 10 < 10 ^ w := by
      rw [Nat.div_lt_iff_lt_mul (by omega)]
      calc m < 10 ^ (w + 1) := hm
        _ = 10 ^ w * 10 := by rw [pow_succ]
    have hnw : n / 10 < 10 ^ w := by
      rw [Nat.div_lt_iff_lt_mul (by omega)]
      calc n < 10 ^ (w + 1) := hn
        _ = 10 ^ w * 10 := by rw [pow_succ]
    have hdiv := ih (m / 10) (n / 10) hmw hnw h1
    have hmod : m % 10 = n % 10 := by
      injection h2 with h2a _
      exact digitChar_inj (by omega) (by omega) h2a
    omega

/-- C3: the run directory is named by the topic slug (lowercased, whitespace
runs joined with hyphens, truncated to 60 characters, defaulting to `topic`
when empty) joined by an underscore to the `YYYYMMDDTHHMMSSZ` UTC stamp;
consequently two invocations on the same topic whose second-resolution UTC
timestamps differ — as the timestamps of calls at least one second apart
do — never share a directory name. -/
theorem c3_run_dir_naming :
    (∀ (topic : List Char) (t : UtcTimestamp),
      run_dir_name topic t = topic_slug topic ++ '_' :: run_stamp t) ∧
    ∀ (topic : List Char) (t₁ t₂ : UtcTimestamp), validTimestamp t₁ → validTimestamp t₂ →
      t₁ ≠ t₂ → run_dir_name topic t₁ ≠ run_dir_name topic t₂ := by
  refine ⟨fun topic t => rfl, ?_⟩
  intro topic t₁ t₂ h₁ h₂ hne heq
  apply hne
  unfold run_dir_name at heq
  have hst : '_' :: run_stamp t₁ = '_' :: run_stamp t₂ := List.append_cancel_left heq
  have hst2 : run_stamp t₁ = run_stamp t₂ := by injection hst
  unfold run_stamp at hst2
  obtain ⟨hy, hr1⟩ := List.append_inj hst2 (by rw [padNum_length, padNum_length])
  obtain ⟨hmo, hr2⟩ := List.append_inj hr1 (by rw [padNum_length, padNum_length])
  obtain ⟨hd, hr3⟩ := List.append_inj hr2 (by rw [padNum_length, padNum_length])
  rw [List.cons.injEq] at hr3
  obtain ⟨-, hr4⟩ := hr3
  obtain ⟨hh, hr5⟩ := List.append_inj hr4 (by rw [padNum_length, padNum_length])
  obtain ⟨hmi, hr6⟩ := List.append_inj hr5 (by rw [padNum_length, padNum_length])
  obtain ⟨hs, -⟩ := List.append_inj hr6 (by rw [padNum_length, padNum_length])
  obtain ⟨hy1, hy2, hm1, hm2, hd1, hd2, hh1, hm3, hs1⟩ := h₁
  obtain ⟨gy1, gy2, gm1, gm2, gd1, gd2, gh1, gm3, gs1⟩ := h₂
  have e1 : t₁.year = t₂.year :=
    padNum_inj 4 _ _ (by norm_num; omega) (by norm_num; omega) hy
  have e2 : t₁.month = t₂.month :=
    padNum_inj 2 _ _ (by norm_num; omega) (by norm_num; omega) hmo
  have e3 : t₁.day = t₂.day :=
    padNum_inj 2 _ _ (by norm_num; omega) (by norm_num; omega) hd
  have e4 : t₁.hour = t₂.hour :=
    padNum_inj 2 _ _ (by norm_num; omega) (by norm_num; omega) hh
  have e5 : t₁.minute = t₂.minute :=
    padNum_inj 2 _ _ (by norm_num; omega) (by norm_num; omega) hmi
  have e6 : t₁.second = t₂.second :=
    padNum_inj 2 _ _ (by norm_num; omega) (by norm_num; omega) hs
  cases t₁
  cases t₂
  simp_all

/-- C3 witness: one second after midnight the name differs from the
midnight one. -/
theorem c3_run_dir_naming_witness :
    run_dir_name "coral reef bleaching".toList ⟨2025, 1, 1, 0, 0, 0⟩ ≠
      run_dir_name "coral reef bleaching".toList ⟨2025, 1, 1, 0, 0, 1⟩ :=
  c3_run_dir_naming.2 "coral reef bleaching".toList ⟨2025, 1, 1, 0, 0, 0⟩
    ⟨2025, 1, 1, 0, 0, 1⟩ (by decide) (by decide) (by decide)

/-! ### Helper lemmas for `str.strip`-style trimming (audio_utils.py 104-118) -/

theorem dropTrailing_cons_all {p : Char → Bool} {cs : List Char} (c : Char)
    (h : ∀ x ∈ cs, p x = true) :
    dropTrailing p (c :: cs) = if p c then [] else [c] := by
  unfold dropTrailing
  rw [List.reverse_cons, List.dropWhile_append]
  have hnil : cs.reverse.dropWhile p = [] :=
    List.dropWhile_eq_nil_iff.mpr (fun x hx => h x (List.mem_reverse.mp hx))
  rw [hnil]
  cases hp : p c <;> simp [List.dropWhile, hp]

theorem dropTrailing_cons_not_all {p : Char → Bool} {cs : List Char} (c : Char)
    (h : ¬ ∀ x ∈ cs, p x = true) :
    dropTrailing p (c :: cs) = c :: dropTrailing p cs := by
  unfold dropTrailing
  rw [List.reverse_cons, List.dropWhile_append]
  have hne : cs.reverse.dropWhile p ≠ [] := fun hh =>
    h (fun x hx => List.dropWhile_eq_nil_iff.mp hh x (List.mem_reverse.mpr hx))
  rw [if_neg (by simpa [List.isEmpty_iff] using hne)]
  simp

theorem dropWhile_dropTrailing_comm (p : Char → Bool) :
    ∀ l : List Char, dropTrailing p (l.dropWhile p) = (dropTrailing p l).dropWhile p := by
  intro l
  induction l with
  | nil => rfl
  | cons c cs ih =>
    by_cases hall : ∀ x ∈ cs, p x = true
    · by_cases hp : p c = true
      · rw [List.dropWhile_cons, if_pos hp]
        have hcs : cs.dropWhile p = [] := List.dropWhile_eq_nil_iff.mpr hall
        rw [hcs, dropTrailing_cons_all c hall, if_pos hp]
        rfl
      · rw [List.dropWhile_cons, if_neg hp, dropTrailing_cons_all c hall, if_neg hp]
        simp [List.dropWhile, hp]
    · have hT : dropTrailing p (c :: cs) = c :: dropTrailing p cs :=
        dropTrailing_cons_not_all c hall
      by_cases hp : p c = true
      · rw [List.dropWhile_cons, if_pos hp, hT, List.dropWhile_cons, if_pos hp, ih]
      · rw [List.dropWhile_cons, if_neg hp, hT, List.dropWhile_cons, if_neg hp]

/-- C6 counterexample: on the region hint `/de` the code strips the leading
slash (producing `de.storage.bunnycdn.com`), while the transformation the
claim describes — stripping only the scheme and trailing slashes — keeps it
and produces `/de.storage.bunnycdn.com`. -/
theorem c6_counterexample :
    normalize_bunny_storage_host "/de".toList ≠ claimNormalizeHost "/de".toList := by
  decide

/-- C6 amended: the host normalization strips surrounding whitespace, an
`http://` or `https://` scheme, and both leading and trailing slashes;
if nothing remains it returns the default host, if the result already ends
in `.bunnycdn.com` it is used as-is, and otherwise it is treated as a short
region code with `.storage.bunnycdn.com` appended. -/
theorem c6_host_normalization (region : List Char) :
    normalize_bunny_storage_host region = amendedNormalizeHost region := by
  unfold normalize_bunny_storage_host amendedNormalizeHost stripSlashes
  rw [dropWhile_dropTrailing_comm]

/-! ### Lemmas on whole-word matching (audio_utils.py lines 11-30)

The development below establishes that one pass of
`_apply_pronunciation_hints` leaves a text in which no pattern of the table
matches any more, so a second pass is the identity. -/

theorem allWord_cons {p : Char} {ps : List Char} (h : allWord (p :: ps) = true) :
    wordChar p = true ∧ allWord ps = true := by
  simpa [allWord, Bool.and_eq_true] using h

/-- A match is insensitive to a continuation that starts at a word
boundary. -/
theorem matchesAt_append {pat b : List Char} (hw : allWord pat = true)
    (hb : bdry b = true) : ∀ u, matchesAt pat (u ++ b) = matchesAt pat u := by
  induction pat with
  | nil =>
    intro u
    cases u with
    | nil =>
      cases b with
      | nil => rfl
      | cons c cs => simpa [matchesAt, bdry] using hb
    | cons c cs => simp [matchesAt]
  | cons p ps ih =>
    obtain ⟨hp, hps⟩ := allWord_cons hw
    intro u
    cases u with
    | nil =>
      cases b with
      | nil => rfl
      | cons c cs =>
        simp only [List.nil_append, matchesAt]
        cases hpc : p == c with
        | false => simp
        | true =>
          have hc : p = c := by simpa using hpc
          subst hc
          simp [bdry, hp] at hb
    | cons c cs =>
      simp only [List.cons_append, matchesAt, List.append_eq, ih hps]

/-- A pattern of word characters cannot match at a non-word character. -/
theorem matchesAt_nonword_head {pat : List Char} (hw : allWord pat = true)
    (hpne : pat ≠ []) {c : Char} (hc : wordChar c = false) (cs : List Char) :
    matchesAt pat (c :: cs) = false := by
  cases pat with
  | nil => exact absurd rfl hpne
  | cons p ps =>
    obtain ⟨hp, -⟩ := allWord_cons hw
    simp only [matchesAt]
    cases hpc : p == c with
    | false => simp
    | true =>
      have : p = c := by simpa using hpc
      subst this
      rw [hp] at hc
      cases hc

/-- The position right after a match is a word boundary. -/
theorem matchesAt_drop_bdry : ∀ (pat s : List Char), matchesAt pat s = true →
    bdry (s.drop pat.length) = true := by
  intro pat
  induction pat with
  | nil =>
    intro s h
    cases s with
    | nil => rfl
    | cons c cs => simpa [matchesAt, bdry] using h
  | cons p ps ih =>
    intro s h
    cases s with
    | nil => simp [matchesAt] at h
    | cons c cs =>
      simp only [matchesAt, Bool.and_eq_true] at h
      simpa [List.length_cons] using ih cs h.2

/-- Scanning an appended string whose second part starts at a word boundary
splits into the two scans. -/
theorem hasOccAux_append {pat b : List Char} (hw : allWord pat = true)
    (hb : bdry b = true) : ∀ (a : List Char) (prev : Bool),
    hasOccAux pat prev (a ++ b) =
      (hasOccAux pat prev a || hasOccAux pat (scanEnd prev a) b) := by
  intro a
  induction a with
  | nil => intro prev; simp [hasOccAux, scanEnd]
  | cons c cs ih =>
    intro prev
    have hm : matchesAt pat (c :: (cs ++ b)) = matchesAt pat (c :: cs) := by
      have h := matchesAt_append hw hb (c :: cs)
      simpa using h
    simp only [List.cons_append, hasOccAux, scanEnd, List.append_eq, hm, ih, Bool.or_assoc]

/-! ### Unfolding equations for the substitution scanner -/

theorem subAux_nil (pat rep : List Char) (prev : Bool) : subAux pat rep prev [] = [] := by
  simp [subAux]

theorem subAux_cons_true (pat rep : List Char) (c : Char) (cs : List Char) :
    subAux pat rep true (c :: cs) = c :: subAux pat rep (wordChar c) cs := by
  simp [subAux]

theorem subAux_cons_match (pat rep : List Char) {c : Char} {cs : List Char}
    (h : matchesAt pat (c :: cs) = true) :
    subAux pat rep false (c :: cs) =
      rep ++ subAux pat rep true (cs.drop (pat.length - 1)) := by
  simp [subAux, h]

theorem subAux_cons_nomatch (pat rep : List Char) {c : Char} {cs : List Char}
    (h : matchesAt pat (c :: cs) = false) :
    subAux pat rep false (c :: cs) = c :: subAux pat rep (wordChar c) cs := by
  simp [subAux, h]

/-- Substitution output keeps a word boundary at its head. -/
theorem bdry_subAux {pat rep : List Char} (hw : allWord pat = true) (hpne : pat ≠ [])
    (t : List Char) (prev : Bool) (hb : bdry t = true) :
    bdry (subAux pat rep prev t) = true := by
  cases t with
  | nil => rw [subAux_nil]; rfl
  | cons c cs =>
    have hc : wordChar c = false := by simpa [bdry] using hb
    have hm := matchesAt_nonword_head hw hpne hc cs
    cases prev with
    | true => rw [subAux_cons_true]; simpa [bdry] using hc
    | false => rw [subAux_cons_nomatch pat rep hm]; simpa [bdry] using hc

/-- Scanning from a position preceded by a word character, substitution
further right does not change whether a word-character pattern matches
here. -/
theorem matchesAt_subAux_true (pat rep : List Char) :
    ∀ (s qs : List Char), allWord qs = true →
      matchesAt qs (subAux pat rep true s) = matchesAt qs s := by
  intro s
  induction s with
  | nil => intro qs _; rw [subAux_nil]
  | cons c cs ih =>
    intro qs hqs
    rw [subAux_cons_true]
    cases qs with
    | nil => simp [matchesAt]
    | cons q qs =>
      obtain ⟨hq, hqs2⟩ := allWord_cons hqs
      simp only [matchesAt]
      cases hqc : q == c with
      | false => simp
      | true =>
        have : q = c := by simpa using hqc
        subst this
        rw [hq, ih qs hqs2]

/-- The scan flag `true` only blocks matches, never enables them. -/
theorem hasOccAux_true_of {pat : List Char} {b : Bool} {s : List Char}
    (h : hasOccAux pat b s = false) : hasOccAux pat true s = false := by
  cases s with
  | nil => rfl
  | cons c cs =>
    simp only [hasOccAux, Bool.or_eq_false_iff] at h ⊢
    exact ⟨by simp, h.2⟩

/-- A suffix of an occurrence-free string is occurrence-free when rescanned
from a word-character state. -/
theorem hasOccAux_drop {pat : List Char} : ∀ (n : Nat) (s : List Char) (b : Bool),
    hasOccAux pat b s = false → hasOccAux pat true (s.drop n) = false := by
  intro n
  induction n with
  | zero => intro s b h; simpa using hasOccAux_true_of h
  | succ n ih =>
    intro s b h
    cases s with
    | nil => rfl
    | cons c cs =>
      simp only [hasOccAux, Bool.or_eq_false_iff] at h
      simpa [List.drop_succ_cons] using ih cs (wordChar c) h.2

theorem drop_length_cons {pat : List Char} (hpne : pat ≠ []) (c : Char) (cs : List Char) :
    (c :: cs).drop pat.length = cs.drop (pat.length - 1) := by
  cases pat with
  | nil => exact absurd rfl hpne
  | cons p ps => simp [List.drop_succ_cons]

/-- After substituting a pattern whose replacement is free of whole-word
occurrences of it, the result has no whole-word occurrence of the pattern
left: `re.sub` replaces every match. -/
theorem hasOccAux_subAux_self {pat rep : List Char} (hpne : pat ≠ [])
    (hw : allWord pat = true) (hrep : hasOccAux pat false rep = false)
    (hend : scanEnd false rep = true) :
    ∀ (n : Nat) (s : List Char) (prev : Bool), s.length ≤ n →
      hasOccAux pat prev (subAux pat rep prev s) = false := by
  intro n
  induction n with
  | zero =>
    intro s prev hlen
    cases s with
    | nil => rw [subAux_nil]; rfl
    | cons c cs => simp at hlen
  | succ n ih =>
    intro s prev hlen
    cases s with
    | nil => rw [subAux_nil]; rfl
    | cons c cs =>
      have hcs : cs.length ≤ n := by simpa using hlen
      cases prev with
      | true =>
        rw [subAux_cons_true]
        simpa [hasOccAux] using ih cs (wordChar c) hcs
      | false =>
        cases hm : matchesAt pat (c :: cs) with
        | true =>
          rw [subAux_cons_match pat rep hm]
          have hbt : bdry (cs.drop (pat.length - 1)) = true := by
            have h := matchesAt_drop_bdry pat (c :: cs) hm
            rwa [drop_length_cons hpne] at h
          have hbo : bdry (subAux pat rep true (cs.drop (pat.length - 1))) = true :=
            bdry_subAux hw hpne _ true hbt
          rw [hasOccAux_append hw hbo, hrep, hend]
          have hlen2 : (cs.drop (pat.length - 1)).length ≤ n := by
            have := List.length_drop (pat.length - 1) cs
            omega
          simpa using ih (cs.drop (pat.length - 1)) true hlen2
        | false =>
          rw [subAux_cons_nomatch pat rep hm]
          have hrest := ih cs (wordChar c) hcs
          have hfirst : matchesAt pat (c :: subAux pat rep (wordChar c) cs) = false := by
            cases hwc : wordChar c with
            | false => exact matchesAt_nonword_head hw hpne hwc _
            | true =>
              cases pat with
              | nil => exact absurd rfl hpne
              | cons p ps =>
                obtain ⟨hp, hps⟩ := allWord_cons hw
                have hms := matchesAt_subAux_true (p :: ps) rep cs ps hps
                simp only [matchesAt, hms]
                simpa [matchesAt] using hm
          simp [hasOccAux, hfirst, hrest]

/-- Substituting one pattern cannot introduce a whole-word occurrence of
another word-character pattern that is absent from the input and from the
replacement. -/
theorem hasOccAux_subAux_other {pat rep q : List Char} (hpne : pat ≠ [])
    (hw : allWord pat = true) (hqne : q ≠ []) (hqw : allWord q = true)
    (hqr : hasOccAux q false rep = false) (hend : scanEnd false rep = true) :
    ∀ (n : Nat) (s : List Char) (prev : Bool), s.length ≤ n →
      hasOccAux q prev s = false →
      hasOccAux q prev (subAux pat rep prev s) = false := by
  intro n
  induction n with
  | zero =>
    intro s prev hlen _
    cases s with
    | nil => rw [subAux_nil]; rfl
    | cons c cs => simp at hlen
  | succ n ih =>
    intro s prev hlen hocc
    cases s with
    | nil => rw [subAux_nil]; rfl
    | cons c cs =>
      have hcs : cs.length ≤ n := by simpa using hlen
      simp only [hasOccAux, Bool.or_eq_false_iff] at hocc
      cases prev with
      | true =>
        rw [subAux_cons_true]
        simpa [hasOccAux] using ih cs (wordChar c) hcs hocc.2
      | false =>
        cases hm : matchesAt pat (c :: cs) with
        | true =>
          rw [subAux_cons_match pat rep hm]
          have hbt : bdry (cs.drop (pat.length - 1)) = true := by
            have h := matchesAt_drop_bdry pat (c :: cs) hm
            rwa [drop_length_cons hpne] at h
          have hbo : bdry (subAux pat rep true (cs.drop (pat.length - 1))) = true :=
            bdry_subAux hw hpne _ true hbt
          rw [hasOccAux_append hqw hbo, hqr, hend]
          have hlen2 : (cs.drop (pat.length - 1)).length ≤ n := by
            have := List.length_drop (pat.length - 1) cs
            omega
          have hdrop : hasOccAux q true (cs.drop (pat.length - 1)) = false :=
            hasOccAux_drop (pat.length - 1) cs (wordChar c) hocc.2
          simpa using ih (cs.drop (pat.length - 1)) true hlen2 hdrop
        | false =>
          rw [subAux_cons_nomatch pat rep hm]
          have hrest := ih cs (wordChar c) hcs hocc.2
          have hfirst : matchesAt q (c :: subAux pat rep (wordChar c) cs) = false := by
            cases hwc : wordChar c with
            | false => exact matchesAt_nonword_head hqw hqne hwc _
            | true =>
              cases q with
              | nil => exact absurd rfl hqne
              | cons q0 qs =>
                obtain ⟨hq0, hqs⟩ := allWord_cons hqw
                have hms := matchesAt_subAux_true pat rep cs qs hqs
                simp only [matchesAt, hms]
                have hq := hocc.1
                simp only [Bool.not_false, Bool.true_and] at hq
                simpa [matchesAt] using hq
          simp [hasOccAux, hfirst, hrest]

/-- On occurrence-free input, substitution is the identity. -/
theorem subAux_id {pat rep : List Char} : ∀ (n : Nat) (s : List Char) (prev : Bool),
    s.length ≤ n → hasOccAux pat prev s = false → subAux pat rep prev s = s := by
  intro n
  induction n with
  | zero =>
    intro s prev hlen _
    cases s with
    | nil => rw [subAux_nil]
    | cons c cs => simp at hlen
  | succ n ih =>
    intro s prev hlen hocc
    cases s with
    | nil => rw [subAux_nil]
    | cons c cs =>
      have hcs : cs.length ≤ n := by simpa using hlen
      simp only [hasOccAux, Bool.or_eq_false_iff] at hocc
      cases prev with
      | true =>
        rw [subAux_cons_true, ih cs (wordChar c) hcs hocc.2]
      | false =>
        have hm : matchesAt pat (c :: cs) = false := by
          have h := hocc.1
          simpa using h
        rw [subAux_cons_nomatch pat rep hm, ih cs (wordChar c) hcs hocc.2]

/-! ### Lifting the substitution lemmas to the whole table -/

theorem runSubs_nil (s : List Char) : runSubs [] s = s := rfl

theorem runSubs_cons (pr : List Char × List Char) (tbl : List (List Char × List Char))
    (s : List Char) : runSubs (pr :: tbl) s = runSubs tbl (subRegex pr.1 pr.2 s) := rfl

/-- Running a table of safe substitutions preserves absence of a pattern. -/
theorem runSubs_preserve {q : List Char} (hqne : q ≠ []) (hqw : allWord q = true) :
    ∀ tbl : List (List Char × List Char),
      (∀ pr ∈ tbl, goodPat pr ∧ hasOccAux q false pr.2 = false) →
      ∀ s : List Char, hasOccAux q false s = false →
        hasOccAux q false (runSubs tbl s) = false := by
  intro tbl
  induction tbl with
  | nil => intro _ s h; exact h
  | cons pr rest ih =>
    intro hall s h
    obtain ⟨⟨hpne, hpw, hpe⟩, hqr⟩ := hall pr (List.mem_cons_self pr rest)
    rw [runSubs_cons]
    refine ih (fun x hx => hall x (List.mem_cons_of_mem pr hx)) _ ?_
    exact hasOccAux_subAux_other hpne hpw hqne hqw hqr hpe s.length s false le_rfl h

/-- After running the whole table once, no pattern of the table occurs. -/
theorem runSubs_noOcc :
    ∀ tbl : List (List Char × List Char),
      (∀ pr ∈ tbl, goodPat pr) →
      (∀ pr ∈ tbl, ∀ qr ∈ tbl, hasOccAux pr.1 false qr.2 = false) →
      ∀ pr ∈ tbl, ∀ s : List Char, hasOccAux pr.1 false (runSubs tbl s) = false := by
  intro tbl
  induction tbl with
  | nil => intro _ _ pr hpr; cases hpr
  | cons t rest ih =>
    intro hgood hcross pr hpr s
    rw [runSubs_cons]
    rcases List.mem_cons.mp hpr with rfl | hmem
    · obtain ⟨hpne, hpw, hpe⟩ := hgood pr (List.mem_cons_self pr rest)
      have hself : hasOccAux pr.1 false pr.2 = false :=
        hcross pr (List.mem_cons_self pr rest) pr (List.mem_cons_self pr rest)
      have hbase : hasOccAux pr.1 false (subRegex pr.1 pr.2 s) = false :=
        hasOccAux_subAux_self hpne hpw hself hpe s.length s false le_rfl
      refine runSubs_preserve hpne hpw rest (fun x hx => ?_) _ hbase
      exact ⟨hgood x (List.mem_cons_of_mem pr hx),
        hcross pr (List.mem_cons_self pr rest) x (List.mem_cons_of_mem pr hx)⟩
    · exact ih (fun x hx => hgood x (List.mem_cons_of_mem t hx))
        (fun x hx y hy =>
          hcross x (List.mem_cons_of_mem t hx) y (List.mem_cons_of_mem t hy))
        pr hmem _

/-- On input free of every table pattern, the substitution pass is the
identity. -/
theorem runSubs_id :
    ∀ (tbl : List (List Char × List Char)) (s : List Char),
      (∀ pr ∈ tbl, hasOccAux pr.1 false s = false) → runSubs tbl s = s := by
  intro tbl
  induction tbl with
  | nil => intro s _; rfl
  | cons pr rest ih =>
    intro s h
    rw [runSubs_cons]
    have hid : subRegex pr.1 pr.2 s = s :=
      subAux_id s.length s false le_rfl (h pr (List.mem_cons_self pr rest))
    rw [hid]
    exact ih s (fun x hx => h x (List.mem_cons_of_mem pr hx))

/-- The concrete table: every pattern is a nonempty all-word string and
every replacement ends in a word character. -/
theorem substitutions_good : ∀ pr ∈ substitutions, goodPat pr := by decide

/-- The concrete table: no replacement of the table contains a whole-word
occurrence of any pattern of the table. -/
theorem substitutions_cross :
    ∀ pr ∈ substitutions, ∀ qr ∈ substitutions, hasOccAux pr.1 false qr.2 = false := by
  decide

/-! ### Whitespace collapsing preserves absence of word-pattern matches -/

theorem wordChar_of_whitespace {c : Char} (h : c.isWhitespace = true) :
    wordChar c = false := by
  simp only [Char.isWhitespace, Bool.or_eq_true, decide_eq_true_eq] at h
  rcases h with ((h | h) | h) | h <;> subst h <;> rfl

theorem splitWhitespace_nil : splitWhitespace [] = [] := by
  simp [splitWhitespace]

theorem splitWhitespace_cons_ws {c : Char} (h : c.isWhitespace = true) (cs : List Char) :
    splitWhitespace (c :: cs) = splitWhitespace cs := by
  simp [splitWhitespace, h]

theorem splitWhitespace_cons_nws {c : Char} (h : c.isWhitespace = false) (cs : List Char) :
    splitWhitespace (c :: cs) =
      (c :: cs.takeWhile (fun d => !d.isWhitespace)) ::
        splitWhitespace (cs.dropWhile (fun d => !d.isWhitespace)) := by
  simp [splitWhitespace, h]

/-- The pieces `str.split()` produces are nonempty and whitespace-free. -/
theorem splitWhitespace_words : ∀ (n : Nat) (s : List Char), s.length ≤ n →
    ∀ w ∈ splitWhitespace s, w ≠ [] ∧ ∀ c ∈ w, c.isWhitespace = false := by
  intro n
  induction n with
  | zero =>
    intro s hlen w hw
    cases s with
    | nil => rw [splitWhitespace_nil] at hw; cases hw
    | cons c cs => simp at hlen
  | succ n ih =>
    intro s hlen w hw
    cases s with
    | nil => rw [splitWhitespace_nil] at hw; cases hw
    | cons c cs =>
      have hcs : cs.length ≤ n := by simpa using hlen
      cases hc : c.isWhitespace with
      | true =>
        rw [splitWhitespace_cons_ws hc] at hw
        exact ih cs hcs w hw
      | false =>
        rw [splitWhitespace_cons_nws hc] at hw
        rcases List.mem_cons.mp hw with rfl | hmem
        · refine ⟨by simp, ?_⟩
          intro d hd
          rcases List.mem_cons.mp hd with rfl | hmem2
          · exact hc
          · have := List.mem_takeWhile_imp hmem2
            simpa using this
        · have hlen2 : (cs.dropWhile (fun d => !d.isWhitespace)).length ≤ n := by
            have := (List.dropWhile_suffix (l := cs) (fun d => !d.isWhitespace)).length_le
            omega
          exact ih _ hlen2 w hmem

/-- The remainder after dropping a word starts at a word boundary. -/
theorem bdry_dropWhile_nws : ∀ cs : List Char,
    bdry (cs.dropWhile (fun d => !d.isWhitespace)) = true := by
  intro cs
  induction cs with
  | nil => rfl
  | cons d ds ih =>
    rw [List.dropWhile_cons]
    cases hd : d.isWhitespace with
    | true => simp [hd, bdry, wordChar_of_whitespace hd]
    | false => simpa [hd] using ih

/-- The head of a `dropWhile` result fails the predicate. -/
theorem dropWhile_head_false {p : Char → Bool} : ∀ {l : List Char} {d : Char}
    {ds : List Char}, l.dropWhile p = d :: ds → p d = false := by
  intro l
  induction l with
  | nil => intro d ds h; cases h
  | cons c cs ih =>
    intro d ds h
    rw [List.dropWhile_cons] at h
    by_cases hc : p c = true
    · rw [if_pos hc] at h
      exact ih h
    · rw [if_neg hc] at h
      injection h with h1 _
      subst h1
      cases hx : p c
      · rfl
      · exact absurd hx hc

/-- If a string has no whole-word occurrence of a word pattern, neither has
any piece of its whitespace split. -/
theorem hasOccAux_words {q : List Char} (hqw : allWord q = true) :
    ∀ (n : Nat) (s : List Char), s.length ≤ n → hasOccAux q false s = false →
      ∀ w ∈ splitWhitespace s, hasOccAux q false w = false := by
  intro n
  induction n with
  | zero =>
    intro s hlen _ w hw
    cases s with
    | nil => rw [splitWhitespace_nil] at hw; cases hw
    | cons c cs => simp at hlen
  | succ n ih =>
    intro s hlen hocc w hw
    cases s with
    | nil => rw [splitWhitespace_nil] at hw; cases hw
    | cons c cs =>
      have hcs : cs.length ≤ n := by simpa using hlen
      cases hc : c.isWhitespace with
      | true =>
        rw [splitWhitespace_cons_ws hc] at hw
        simp only [hasOccAux, Bool.or_eq_false_iff, wordChar_of_whitespace hc] at hocc
        exact ih cs hcs hocc.2 w hw
      | false =>
        rw [splitWhitespace_cons_nws hc] at hw
        have hdec : c :: cs =
            (c :: cs.takeWhile (fun d => !d.isWhitespace)) ++
              cs.dropWhile (fun d => !d.isWhitespace) := by
          rw [List.cons_append, List.takeWhile_append_dropWhile]
        rw [hdec, hasOccAux_append hqw (bdry_dropWhile_nws cs), Bool.or_eq_false_iff]
          at hocc
        rcases List.mem_cons.mp hw with rfl | hmem
        · exact hocc.1
        · have hrest := hocc.2
          cases hrd : cs.dropWhile (fun d => !d.isWhitespace) with
          | nil =>
            rw [hrd, splitWhitespace_nil] at hmem
            cases hmem
          | cons d ds =>
            rw [hrd] at hrest hmem
            have hdws : d.isWhitespace = true := by
              have := dropWhile_head_false hrd
              simpa using this
            rw [splitWhitespace_cons_ws hdws] at hmem
            simp only [hasOccAux, Bool.or_eq_false_iff, wordChar_of_whitespace hdws]
              at hrest
            have hlen2 : ds.length ≤ n := by
              have := (List.dropWhile_suffix (l := cs) (fun d => !d.isWhitespace)).length_le
              rw [hrd] at this
              simp only [List.length_cons] at this
              omega
            exact ih ds hlen2 hrest.2 w hmem

/-- Joining occurrence-free pieces with single spaces yields an
occurrence-free string. -/
theorem hasOccAux_joinSpace {q : List Char} (hqne : q ≠ []) (hqw : allWord q = true) :
    ∀ ws : List (List Char), (∀ w ∈ ws, hasOccAux q false w = false) →
      hasOccAux q false (joinWith ' ' ws) = false := by
  intro ws
  induction ws with
  | nil => intro _; rfl
  | cons w ws ih =>
    intro h
    cases ws with
    | nil => exact h w (List.mem_cons_self w [])
    | cons x ws2 =>
      show hasOccAux q false (w ++ ' ' :: joinWith ' ' (x :: ws2)) = false
      have hsp : wordChar ' ' = false := rfl
      have hb : bdry (' ' :: joinWith ' ' (x :: ws2)) = true := by simp [bdry, hsp]
      rw [hasOccAux_append hqw hb, Bool.or_eq_false_iff]
      refine ⟨h w (List.mem_cons_self w (x :: ws2)), ?_⟩
      have hm : matchesAt q (' ' :: joinWith ' ' (x :: ws2)) = false :=
        matchesAt_nonword_head hqw hqne hsp _
      simp only [hasOccAux, hm, Bool.and_false, Bool.false_or, hsp]
      exact ih (fun y hy => h y (List.mem_cons_of_mem w hy))

/-- Whitespace collapsing preserves absence of whole-word occurrences of a
word pattern. -/
theorem hasOccAux_collapse {q : List Char} (hqne : q ≠ []) (hqw : allWord q = true)
    {s : List Char} (h : hasOccAux q false s = false) :
    hasOccAux q false (collapseWhitespace s) = false := by
  unfold collapseWhitespace
  exact hasOccAux_joinSpace hqne hqw _ (hasOccAux_words hqw s.length s le_rfl h)

/-! ### Whitespace collapsing is idempotent -/

theorem takeWhile_all_append {p : Char → Bool} {a : List Char}
    (ha : ∀ x ∈ a, p x = true) {d : Char} (hd : p d = false) (r : List Char) :
    (a ++ d :: r).takeWhile p = a := by
  induction a with
  | nil => simp [List.takeWhile_cons, hd]
  | cons c cs ih =>
    have hc : p c = true := ha c (List.mem_cons_self c cs)
    simp only [List.cons_append, List.takeWhile_cons, hc, if_true]
    rw [ih (fun x hx => ha x (List.mem_cons_of_mem c hx))]

theorem dropWhile_all_append {p : Char → Bool} {a : List Char}
    (ha : ∀ x ∈ a, p x = true) {d : Char} (hd : p d = false) (r : List Char) :
    (a ++ d :: r).dropWhile p = d :: r := by
  induction a with
  | nil => simp [List.dropWhile_cons, hd]
  | cons c cs ih =>
    have hc : p c = true := ha c (List.mem_cons_self c cs)
    simp only [List.cons_append, List.dropWhile_cons, hc, if_true]
    exact ih (fun x hx => ha x (List.mem_cons_of_mem c hx))

/-- Splitting a single nonempty whitespace-free word returns just it. -/
theorem splitWhitespace_word {w : List Char} (hne : w ≠ [])
    (hnw : ∀ c ∈ w, c.isWhitespace = false) : splitWhitespace w = [w] := by
  cases w with
  | nil => exact absurd rfl hne
  | cons c cs =>
    have hc : c.isWhitespace = false := hnw c (List.mem_cons_self c cs)
    rw [splitWhitespace_cons_nws hc]
    have htk : cs.takeWhile (fun d => !d.isWhitespace) = cs :=
      List.takeWhile_eq_self_iff.mpr
        (fun x hx => by simp [hnw x (List.mem_cons_of_mem c hx)])
    have hdp : cs.dropWhile (fun d => !d.isWhitespace) = [] :=
      List.dropWhile_eq_nil_iff.mpr
        (fun x hx => by simp [hnw x (List.mem_cons_of_mem c hx)])
    rw [htk, hdp, splitWhitespace_nil]

/-- Splitting a single-space join of nonempty whitespace-free words returns
the words. -/
theorem splitWhitespace_joinSpace :
    ∀ ws : List (List Char),
      (∀ w ∈ ws, w ≠ [] ∧ ∀ c ∈ w, c.isWhitespace = false) →
      splitWhitespace (joinWith ' ' ws) = ws := by
  intro ws
  induction ws with
  | nil => exact fun _ => splitWhitespace_nil
  | cons w ws ih =>
    intro h
    obtain ⟨hne, hnw⟩ := h w (List.mem_cons_self w ws)
    cases ws with
    | nil => exact splitWhitespace_word hne hnw
    | cons x ws2 =>
      show splitWhitespace (w ++ ' ' :: joinWith ' ' (x :: ws2)) = _
      cases w with
      | nil => exact absurd rfl hne
      | cons c cs =>
        have hc : c.isWhitespace = false := hnw c (List.mem_cons_self c cs)
        have hcsnw : ∀ y ∈ cs, (fun d => !d.isWhitespace) y = true :=
          fun y hy => by simp [hnw y (List.mem_cons_of_mem c hy)]
        have hsp : (fun d => !d.isWhitespace) ' ' = false := rfl
        rw [List.cons_append, splitWhitespace_cons_nws hc,
          takeWhile_all_append hcsnw hsp, dropWhile_all_append hcsnw hsp,
          splitWhitespace_cons_ws (show (' ').isWhitespace = true from rfl),
          ih (fun y hy => h y (List.mem_cons_of_mem (c :: cs) hy))]

/-- `" ".join(s.split())` is idempotent. -/
theorem collapseWhitespace_idem (s : List Char) :
    collapseWhitespace (collapseWhitespace s) = collapseWhitespace s := by
  unfold collapseWhitespace
  rw [splitWhitespace_joinSpace (splitWhitespace s)
    (splitWhitespace_words s.length s le_rfl)]

/-- C7: the Pronunciation Normalizer is a deterministic total function —
it is modelled by a total Lean function, so two runs on equal input are
equal and no input fails — and it is idempotent on every input on which no
acronym regex of its table matches. -/
theorem c7_normalizer_deterministic_idempotent :
    (∀ s : List Char, apply_pronunciation_hints s = apply_pronunciation_hints s) ∧
    ∀ s : List Char, containsTableAcronym s = false →
      apply_pronunciation_hints (apply_pronunciation_hints s) =
        apply_pronunciation_hints s := by
  refine ⟨fun s => rfl, ?_⟩
  intro s hfree
  have hno : ∀ pr ∈ substitutions, hasOccAux pr.1 false s = false := by
    intro pr hpr
    have h := hfree
    unfold containsTableAcronym at h
    rw [List.any_eq_false] at h
    simpa using h pr hpr
  unfold apply_pronunciation_hints
  rw [runSubs_id substitutions s hno]
  have hnoc : ∀ pr ∈ substitutions, hasOccAux pr.1 false (collapseWhitespace s) = false := by
    intro pr hpr
    obtain ⟨hpne, hpw, -⟩ := substitutions_good pr hpr
    exact hasOccAux_collapse hpne hpw (hno pr hpr)
  rw [runSubs_id substitutions (collapseWhitespace s) hnoc, collapseWhitespace_idem]

/-- C7 witness: on a concrete acronym-free text the normalizer is
idempotent. -/
theorem c7_normalizer_deterministic_idempotent_witness :
    apply_pronunciation_hints (apply_pronunciation_hints "hello   ffmpeg world".toList) =
      apply_pronunciation_hints "hello   ffmpeg world".toList :=
  c7_normalizer_deterministic_idempotent.2 "hello   ffmpeg world".toList (by decide)

/-- C9: the Pronunciation Normalizer is idempotent on every input, not only
acronym-free input: one pass replaces every whole-word occurrence of each
table pattern, no replacement string reintroduces a whole-word occurrence of
any pattern, whitespace collapsing preserves this absence and is itself
idempotent, so a second pass is the identity. -/
theorem c9_normalizer_idempotent (s : List Char) :
    apply_pronunciation_hints (apply_pronunciation_hints s) =
      apply_pronunciation_hints s := by
  unfold apply_pronunciation_hints
  have hno : ∀ pr ∈ substitutions,
      hasOccAux pr.1 false (runSubs substitutions s) = false :=
    fun pr hpr => runSubs_noOcc substitutions substitutions_good substitutions_cross
      pr hpr s
  have hnoc : ∀ pr ∈ substitutions,
      hasOccAux pr.1 false (collapseWhitespace (runSubs substitutions s)) = false := by
    intro pr hpr
    obtain ⟨hpne, hpw, -⟩ := substitutions_good pr hpr
    exact hasOccAux_collapse hpne hpw (hno pr hpr)
  rw [runSubs_id substitutions _ hnoc, collapseWhitespace_idem]

end TemplateAgent
